import Mathlib

/-!
# gitviewfs: the filesystem adapter over the tree model

A shallow embedding of `gitviewfs/fs.go` and `gitviewfs/fstree/fstree.go`.

* Go strings are byte sequences (`GoString`).
* A Go `map[string]Node` is an association list read with "first binding wins";
  `GoMap.entries` is its set of key/value pairs and a `RangeOrder` picks the order in
  which a `range` statement visits them.
* Every operation returns its Go result together with the trace of the calls it made on
  the tree model (`Children()`, `File().Reader()`, reads, `Close()`) and on the logger.
-/

namespace Gitviewfs

/-- A Go `string`: an immutable sequence of bytes. -/
abbrev GoString := List UInt8

/-- The bytes of an ASCII literal, used to write paths and names in examples. -/
def str (s : String) : GoString := s.toList.map (fun c => UInt8.ofNat c.toNat)

/-- A Go `error` value, identified by its message. -/
abbrev GoError := String

/-! ## Constants of the libraries the adapter is written against -/

namespace fuse

/-- The type `fuse.Status`: an errno value. -/
abbrev Status := Nat

/-! The statuses are the errno values of `syscall` on Linux. -/

def OK : Status := 0
def ENOENT : Status := 2
def EIO : Status := 5
def ENOTDIR : Status := 20
def EINVAL : Status := 22

/-! The file-type bits of a mode, as in `syscall`. -/

def S_IFDIR : Nat := 0o040000
def S_IFREG : Nat := 0o100000
def S_IFLNK : Nat := 0o120000

/-- The type `fuse.Attr`; `var attr fuse.Attr` is `{}`, every field zero. -/
structure Attr where
  Ino : Nat := 0
  Size : Nat := 0
  Blocks : Nat := 0
  Atime : Nat := 0
  Mtime : Nat := 0
  Ctime : Nat := 0
  Atimensec : Nat := 0
  Mtimensec : Nat := 0
  Ctimensec : Nat := 0
  Mode : Nat := 0
  Nlink : Nat := 0
  Uid : Nat := 0
  Gid : Nat := 0
  Rdev : Nat := 0
  Blksize : Nat := 0
  Padding : Nat := 0
  deriving DecidableEq, Repr

/-- The type `fuse.DirEntry`; `fuse.DirEntry{Name: name}` leaves `Mode` zero. -/
structure DirEntry where
  Name : GoString
  Mode : Nat := 0
  deriving DecidableEq, Repr

end fuse

namespace filemode

/-- The type `filemode.FileMode`, a `uint32`. -/
abbrev FileMode := Nat

/-! The modes of go-git's package `filemode`. -/

def Empty : FileMode := 0
def Dir : FileMode := 0o040000
def Regular : FileMode := 0o100644
def Deprecated : FileMode := 0o100664
def Executable : FileMode := 0o100755
def Symlink : FileMode := 0o120000
def Submodule : FileMode := 0o160000

end filemode

namespace fserror

/-- Modelled from the spec: the package `gitviewfs/fserror` is not among the sources. An
error value carries a stable status and an optional underlying cause ("a result type
carrying a stable status tag plus an optional causal error for diagnostics"). -/
structure Error where
  Status : fuse.Status
  UnexpectedErr : Option GoError
  deriving DecidableEq, Repr

/-- Modelled from the spec: `fserror.Expected(status)` is not among the sources. An expected
error is a status with no underlying cause. -/
def Expected (status : fuse.Status) : Error := ⟨status, none⟩

end fserror

/-! ## Go maps -/

/-- A Go `map[string]V`, as a list of bindings in which the first binding of a key wins. -/
abbrev GoMap (V : Type) := List (GoString × V)

namespace GoMap

variable {V : Type}

/-- The map index expression `v, ok := m[k]`. -/
def get (m : GoMap V) (k : GoString) : Option V := List.lookup k m

/-- The bindings of the map that are not shadowed, skipping the keys in `seen`. -/
def entriesFrom (seen : List GoString) : GoMap V → List (GoString × V)
  | [] => []
  | (k, v) :: t =>
    if k ∈ seen then entriesFrom seen t else (k, v) :: entriesFrom (k :: seen) t

/-- The key/value pairs of the map, one per key. -/
def entries (m : GoMap V) : List (GoString × V) := entriesFrom [] m

/-- The keys of the map. -/
def keys (m : GoMap V) : List GoString := (entries m).map Prod.fst

end GoMap

/-- The order in which a `range` statement visits a map: unspecified by Go, so any
rearrangement of the pairs. -/
structure RangeOrder where
  visit : {α : Type} → List α → List α
  visit_perm : ∀ {α : Type} (l : List α), (visit l).Perm l

/-- The order that visits the pairs as they are stored. -/
def RangeOrder.stored : RangeOrder := ⟨fun l => l, fun l => List.Perm.refl l⟩

/-- The order that visits the pairs last to first. -/
def RangeOrder.reversed : RangeOrder := ⟨fun l => l.reverse, fun l => List.reverse_perm l⟩

/-! ## The tree model (`fstree.go`) and the objects behind it -/

/-- What one `Read` sequence of an `io.ReadCloser` delivers: the chunks handed out by the
successive reads, ended by end-of-file (`none`) or by an error. -/
structure Reader where
  chunks : List (List UInt8)
  failure : Option GoError
  deriving DecidableEq, Repr

/-- The part of `object.File` the adapter uses: the field `Mode` and the method `Reader()`. -/
structure File where
  Mode : filemode.FileMode
  Reader : Except GoError Reader

/-- A value of `fstree.Node`, which is `interface{}`. The interfaces `fstree.DirNode` and
`fstree.FileNode` are independent method sets, so a value may satisfy the one (`dir`), the
other (`file`), the two of them (`both`) or neither (`other`). A value that satisfies
`fstree.DirNode` is given with what its method `Children()` returns, one that satisfies
`fstree.FileNode` with what its method `File()` returns. -/
inductive Node where
  | dir (children : Except fserror.Error (List (GoString × Node)))
  | file (file : File)
  | both (children : Except fserror.Error (List (GoString × Node))) (file : File)
  | other

namespace Node

/-- The type assertion `node.(fstree.DirNode)`: the result of `Children()` when the node
has that method. -/
def asDirNode : Node → Option (Except fserror.Error (GoMap Node))
  | dir c => some c
  | both c _ => some c
  | _ => none

/-- The type assertion `node.(fstree.FileNode)`: the result of `File()` when the node has
that method. -/
def asFileNode : Node → Option File
  | file f => some f
  | both _ f => some f
  | _ => none

end Node

/-! ## Traces -/

/-- A call the adapter makes on the tree model, on a content reader or on its logger. -/
inductive Event where
  /-- The call `dirNode.Children()` on the given node. -/
  | children (node : Node)
  /-- The call `File().Reader()` on the given file. -/
  | openReader (file : File)
  /-- The call `ioutil.ReadAll(reader)`. -/
  | readAll (reader : Reader)
  /-- The deferred call `reader.Close()`. -/
  | close (reader : Reader)
  /-- The call `f.logger.Printf(format, ...)`. -/
  | printf (format : String)

/-- A Go result together with the calls made to compute it, oldest first. -/
structure Traced (α : Type) where
  result : α
  trace : List Event

namespace Traced

/-- Run `x`, then `k` on its result; the calls of `x` come first. -/
def andThen {α β : Type} (x : Traced α) (k : α → Traced β) : Traced β :=
  ⟨(k x.result).result, x.trace ++ (k x.result).trace⟩

instance : Monad Traced where
  pure a := ⟨a, []⟩
  bind := andThen

/-- Make the call `e`, which returns `a`. -/
def call {α : Type} (e : Event) (a : α) : Traced α := ⟨a, [e]⟩

end Traced

/-! ## Library functions -/

namespace strings

/-- The byte `/`. -/
def slash : UInt8 := 47

/-- The function `strings.Split(s, sep)` for a separator `sep` of one byte: the substrings
of `s` between the occurrences of `sep`; one more substring than there are occurrences. -/
def Split (s : GoString) (sep : UInt8) : List GoString :=
  match s with
  | [] => [[]]
  | c :: cs =>
    if c = sep then [] :: Split cs sep
    else
      match Split cs sep with
      | [] => [[c]]
      | seg :: segs => (c :: seg) :: segs

end strings

namespace ioutil

/-- The function `ioutil.ReadAll(reader)`: the bytes read until end-of-file or the first
error, and that error. -/
def ReadAll (reader : Reader) : List UInt8 × Option GoError :=
  (reader.chunks.flatten, reader.failure)

end ioutil

/-! ## The adapter (`fs.go`) -/

/-- The function `computeFuseFileMode`. -/
def computeFuseFileMode (mode : filemode.FileMode) : Nat :=
  if mode = filemode.Regular then fuse.S_IFREG ||| 0o444
  else if mode = filemode.Symlink then fuse.S_IFLNK ||| 0o444
  else if mode = filemode.Executable then fuse.S_IFREG ||| 0o555
  else 0

/-- The struct `gitviewfs`. The constructor `newFile` and the method `GetAttr` of the file
handle it builds are defined outside `fs.go` and are taken as parameters; `H` is the type
of file handles. -/
structure gitviewfs (H : Type) where
  fstree : Node
  newFile : Node → H
  fileGetAttr : H → fuse.Attr → Traced (fuse.Attr × fuse.Status)

namespace gitviewfs

variable {H : Type}

open Traced

/-- The loop of `findNode`: the segments still to visit, from the node reached so far. -/
def findNodeLoop : Node → List GoString → Traced (Except fserror.Error Node)
  | node, [] => pure (.ok node)
  | node, part :: rest =>
    match node.asDirNode with
    | some res => do
      let r ← call (.children node) res
      match r with
      | .error ferr => pure (.error ferr)
      | .ok children =>
        match children.get part with
        | none => pure (.error (fserror.Expected fuse.ENOENT))
        | some child => findNodeLoop child rest
    | none => pure (.error (fserror.Expected fuse.ENOENT))

/-- The method `findNode`. -/
def findNode (f : gitviewfs H) (name : GoString) : Traced (Except fserror.Error Node) :=
  if name = [] then pure (.ok f.fstree)
  else findNodeLoop f.fstree (strings.Split name strings.slash)

/-- The block `if ferr.UnexpectedErr != nil { f.logger.Printf(...) }`. -/
def logUnexpected (ferr : fserror.Error) : Traced Unit :=
  match ferr.UnexpectedErr with
  | some _ => call (.printf "unexpected error: %s") ()
  | none => pure ()

/-- The method `GetAttr`. -/
def GetAttr (f : gitviewfs H) (name : GoString) : Traced (Option fuse.Attr × fuse.Status) := do
  let r ← f.findNode name
  match r with
  | .error ferr => do
    logUnexpected ferr
    pure (none, ferr.Status)
  | .ok node =>
    let attr : fuse.Attr := {}
    match node.asDirNode with
    | some _ => pure (some { attr with Mode := fuse.S_IFDIR ||| 0o555 }, fuse.OK)
    | none =>
      match node.asFileNode with
      | some _ => do
        let res ← f.fileGetAttr (f.newFile node) attr
        if res.2 ≠ fuse.OK then pure (none, res.2) else pure (some res.1, fuse.OK)
      | none => do
        call (.printf "skipping node: %v") ()
        pure (none, fuse.ENOENT)

/-- One iteration of the `range` loop of `OpenDir`: the entry appended for a child. -/
def dirEntryFor (name : GoString) (child : Node) : Traced fuse.DirEntry :=
  let entry : fuse.DirEntry := { Name := name }
  match child.asDirNode with
  | some _ => pure { entry with Mode := fuse.S_IFDIR ||| 0o555 }
  | none =>
    match child.asFileNode with
    | some file =>
      if computeFuseFileMode file.Mode ≠ 0 then
        pure { entry with Mode := computeFuseFileMode file.Mode }
      else do
        call (.printf "skipping file child: %v") ()
        pure entry
    | none => do
      call (.printf "skipping child: %v") ()
      pure entry

/-- The `range` loop of `OpenDir` over the pairs in the order they are visited. -/
def rangeLoop : List (GoString × Node) → Traced (List fuse.DirEntry)
  | [] => pure []
  | (name, child) :: rest => do
    let entry ← dirEntryFor name child
    let entries ← rangeLoop rest
    pure (entry :: entries)

/-- The method `OpenDir`; `order` is the order in which `range` visits the children. A nil
slice is the empty list. -/
def OpenDir (f : gitviewfs H) (order : RangeOrder) (name : GoString) :
    Traced (List fuse.DirEntry × fuse.Status) := do
  let r ← f.findNode name
  match r with
  | .error ferr => do
    logUnexpected ferr
    pure ([], ferr.Status)
  | .ok node =>
    match node.asDirNode with
    | none => pure ([], fuse.ENOTDIR)
    | some res => do
      let c ← call (.children node) res
      match c with
      | .error ferr => do
        logUnexpected ferr
        pure ([], ferr.Status)
      | .ok children => do
        let entries ← rangeLoop (order.visit (GoMap.entries children))
        pure (entries, fuse.OK)

/-- The method `Open`. -/
def Open (f : gitviewfs H) (name : GoString) : Traced (Option H × fuse.Status) := do
  let r ← f.findNode name
  match r with
  | .error ferr => do
    logUnexpected ferr
    pure (none, ferr.Status)
  | .ok node =>
    match node.asFileNode with
    | none => pure (none, fuse.EINVAL)
    | some _ => pure (some (f.newFile node), fuse.OK)

/-- The method `Readlink`. -/
def Readlink (f : gitviewfs H) (name : GoString) : Traced (GoString × fuse.Status) := do
  let r ← f.findNode name
  match r with
  | .error ferr => do
    logUnexpected ferr
    pure ([], ferr.Status)
  | .ok node =>
    match node.asFileNode with
    | none => do
      call (.printf "expected file node at: %s") ()
      pure ([], fuse.EINVAL)
    | some file =>
      if file.Mode ≠ filemode.Symlink then do
        call (.printf "expected symlink at: %s") ()
        pure ([], fuse.EINVAL)
      else do
        let o ← call (.openReader file) file.Reader
        match o with
        | .error _ => do
          call (.printf "error creating file reader: %s") ()
          pure ([], fuse.EIO)
        | .ok reader => do
          let res ← call (.readAll reader) (ioutil.ReadAll reader)
          match res.2 with
          | some _ => do
            call (.printf "error reading file: %s") ()
            call (.close reader) ()
            pure ([], fuse.EIO)
          | none => do
            call (.close reader) ()
            pure (res.1, fuse.OK)

end gitviewfs

/-! ## The reference resolution of the specification -/

/-- One step of resolution as the specification words it: the current node must be a
Directory, its children are fetched, and the segment is looked up by exact name match. -/
def resolveStep (acc : Except fserror.Error Node) (segment : GoString) :
    Except fserror.Error Node :=
  match acc with
  | .error e => .error e
  | .ok node =>
    match node.asDirNode with
    | some (.ok children) =>
      match children.find? (fun kv => decide (kv.1 = segment)) with
      | some kv => .ok kv.2
      | none => .error (fserror.Expected fuse.ENOENT)
    | some (.error e) => .error e
    | none => .error (fserror.Expected fuse.ENOENT)

/-- Resolution as a left fold of `resolveStep` over the segments, starting at the root. -/
def resolveFold (root : Node) (segments : List GoString) : Except fserror.Error Node :=
  segments.foldl resolveStep (.ok root)

/-- The path of the child named `n` of the directory at path `P`: `n` itself when `P` is
empty, `P + "/" + n` otherwise. -/
def joinPath (P n : GoString) : GoString :=
  if P = [] then n else P ++ strings.slash :: n

/-! ## Examples -/

namespace Example

/-- A file of the given mode whose content is `run` followed by a newline, in two chunks. -/
def blob (mode : filemode.FileMode) : File :=
  ⟨mode, .ok ⟨[[114, 117], [110, 10]], none⟩⟩

/-- The children of the root in the specification's scenario (directory `docs` holding
`readme.txt`, and the executable `run.sh`), with a symbolic link added. -/
def cleanChildren : GoMap Node :=
  [(str "docs", .dir (.ok [(str "readme.txt", .file (blob filemode.Regular))])),
    (str "run.sh", .file (blob filemode.Executable)),
    (str "link", .file (blob filemode.Symlink))]

/-- The scenario's tree. -/
def cleanTree : Node := .dir (.ok cleanChildren)

/-- The children of `cleanTree` and two more that have no translation: a submodule entry
and a node of neither capability. -/
def children : GoMap Node :=
  cleanChildren ++ [(str "sub", .file (blob filemode.Submodule)), (str "odd", .other)]

/-- The scenario's tree with the two children that have no translation. -/
def tree : Node := .dir (.ok children)

/-- The error of a directory whose tree object is missing from the repository. -/
def brokenError : fserror.Error :=
  { Status := fuse.EIO, UnexpectedErr := some "object not found" }

/-- A tree in which the directory `broken` cannot be enumerated. -/
def brokenTree : Node :=
  .dir (.ok [(str "broken", .dir (.error brokenError))])

/-- A symbolic link whose content cannot be opened. -/
def deadLink : File := ⟨filemode.Symlink, .error "object not found"⟩

/-- A symbolic link whose content is cut short: two bytes are read, then the read fails. -/
def cutLink : File := ⟨filemode.Symlink, .ok ⟨[[114, 117]], some "unexpected EOF"⟩⟩

/-- A tree holding the two symbolic links whose content cannot be read. -/
def linkTree : Node :=
  .dir (.ok [(str "dead", .file deadLink), (str "cut", .file cutLink)])

/-- A value that satisfies both `fstree.DirNode` and `fstree.FileNode`: its `Children()`
returns one file, its `File()` is a symbolic link. -/
def dual : Node :=
  .both (.ok [(str "inner", .file (blob filemode.Regular))]) (blob filemode.Symlink)

/-- A tree whose child `dual` satisfies both interfaces. -/
def dualTree : Node := .dir (.ok [(str "dual", dual)])

/-- A tree whose directory `ghost` cannot be enumerated: its `Children()` fails with the
expected error ENOENT. -/
def ghostTree : Node :=
  .dir (.ok [(str "ghost", .dir (.error (fserror.Expected fuse.ENOENT)))])

/-- A filesystem over `root` whose file handles are the nodes themselves. -/
def fs (root : Node) : gitviewfs Node :=
  ⟨root, fun n => n, fun _ attr => pure (attr, fuse.OK)⟩

end Example

/-! ## Lemmas -/

namespace Traced

variable {α β : Type}

@[simp] theorem result_pure (a : α) : (pure a : Traced α).result = a := rfl
@[simp] theorem trace_pure (a : α) : (pure a : Traced α).trace = [] := rfl
@[simp] theorem result_bind (x : Traced α) (k : α → Traced β) :
    (x >>= k).result = (k x.result).result := rfl
@[simp] theorem trace_bind (x : Traced α) (k : α → Traced β) :
    (x >>= k).trace = x.trace ++ (k x.result).trace := rfl
@[simp] theorem result_call (e : Event) (a : α) : (call e a).result = a := rfl
@[simp] theorem trace_call (e : Event) (a : α) : (call e a).trace = [e] := rfl

theorem eq_of_result_trace {x y : Traced α} (hr : x.result = y.result)
    (ht : x.trace = y.trace) : x = y := by
  cases x; cases y; simp_all

end Traced

namespace strings

theorem Split_ne_nil (s : GoString) (sep : UInt8) : Split s sep ≠ [] := by
  cases s with
  | nil => simp [Split]
  | cons c cs =>
    unfold Split
    split
    · simp
    · split <;> simp

theorem Split_append_sep (p q : GoString) (sep : UInt8) :
    Split (p ++ sep :: q) sep = Split p sep ++ Split q sep := by
  induction p with
  | nil => simp [Split]
  | cons c cs ih =>
    by_cases hc : c = sep
    · simp [Split, hc, ih]
    · have hne := Split_ne_nil cs sep
      cases hs : Split cs sep with
      | nil => exact absurd hs hne
      | cons seg segs => simp [Split, hc, ih, hs]

theorem Split_cons_sep (s : GoString) (sep : UInt8) :
    Split (sep :: s) sep = [] :: Split s sep := by
  simp [Split]

theorem Split_append_sep_nil (p : GoString) (sep : UInt8) :
    Split (p ++ [sep]) sep = Split p sep ++ [[]] := by
  rw [Split_append_sep]
  rfl

theorem Split_of_not_mem (s : GoString) (sep : UInt8) (h : sep ∉ s) :
    Split s sep = [s] := by
  induction s with
  | nil => rfl
  | cons c cs ih =>
    have hc : c ≠ sep := fun e => h (by simp [e])
    have hcs : sep ∉ cs := fun e => h (List.mem_cons_of_mem _ e)
    simp [Split, hc, ih hcs]

end strings

namespace GoMap

variable {V : Type}

theorem get_eq_find (m : GoMap V) (k : GoString) :
    get m k = (m.find? (fun kv => decide (kv.1 = k))).map Prod.snd := by
  induction m with
  | nil => simp [get]
  | cons kv t ih =>
    obtain ⟨k', v⟩ := kv
    by_cases h : k' = k
    · subst h
      simp [get, List.lookup_cons]
    · have h' : (k == k') = false := by simpa using fun e => h e.symm
      simp only [get] at ih
      simp [get, List.lookup_cons, h', h, ih]

theorem mem_entriesFrom {seen : List GoString} {m : GoMap V} {k : GoString} {v : V}
    (h : (k, v) ∈ entriesFrom seen m) : k ∉ seen ∧ get m k = some v := by
  induction m generalizing seen with
  | nil => simp [entriesFrom] at h
  | cons kv t ih =>
    obtain ⟨k', v'⟩ := kv
    by_cases hs : k' ∈ seen
    · simp only [entriesFrom, hs, if_true] at h
      obtain ⟨h1, h2⟩ := ih h
      have hne : (k == k') = false := by
        simpa using fun e : k = k' => h1 (e ▸ hs)
      refine ⟨h1, ?_⟩
      simp only [get] at h2
      simp [get, List.lookup_cons, hne, h2]
    · simp only [entriesFrom, hs, if_false, List.mem_cons] at h
      rcases h with h | h
      · obtain ⟨rfl, rfl⟩ := Prod.mk.inj h
        exact ⟨hs, by simp [get, List.lookup_cons]⟩
      · obtain ⟨h1, h2⟩ := ih h
        have hkk : k ≠ k' := fun e => h1 (by simp [e])
        have hne : (k == k') = false := by simpa using hkk
        refine ⟨fun hk => h1 (List.mem_cons_of_mem _ hk), ?_⟩
        simp only [get] at h2
        simp [get, List.lookup_cons, hne, h2]

theorem mem_of_get {m : GoMap V} {k : GoString} {v : V} (h : get m k = some v) :
    (k, v) ∈ m := by
  induction m with
  | nil => simp [get] at h
  | cons kv t ih =>
    obtain ⟨k', v'⟩ := kv
    by_cases hk : k = k'
    · subst hk
      simp [get, List.lookup_cons] at h
      simp [h]
    · have hne : (k == k') = false := by simpa using hk
      simp only [get, List.lookup_cons, hne] at h
      exact List.mem_cons_of_mem _ (ih h)

theorem get_of_mem_entries {m : GoMap V} {k : GoString} {v : V}
    (h : (k, v) ∈ entries m) : get m k = some v :=
  (mem_entriesFrom h).2

theorem mem_entriesFrom_of_get {seen : List GoString} {m : GoMap V} {k : GoString} {v : V}
    (h : get m k = some v) (hk : k ∉ seen) : (k, v) ∈ entriesFrom seen m := by
  induction m generalizing seen with
  | nil => simp [get] at h
  | cons kv t ih =>
    obtain ⟨k', v'⟩ := kv
    by_cases hkk : k = k'
    · subst hkk
      have hv : v' = v := by simpa [get, List.lookup_cons] using h
      subst hv
      simp [entriesFrom, hk]
    · have hne : (k == k') = false := by simpa using hkk
      have ht : get t k = some v := by simpa [get, List.lookup_cons, hne] using h
      by_cases hs : k' ∈ seen
      · simpa [entriesFrom, hs] using ih ht hk
      · have hk2 : k ∉ k' :: seen := by simp [hkk, hk]
        simp only [entriesFrom, hs, if_false]
        exact List.mem_cons_of_mem _ (ih ht hk2)

theorem mem_keys_of_get {m : GoMap V} {k : GoString} {v : V} (h : get m k = some v) :
    k ∈ keys m :=
  List.mem_map.2 ⟨(k, v), mem_entriesFrom_of_get h (by simp), rfl⟩

theorem nodup_keys_entriesFrom (seen : List GoString) (m : GoMap V) :
    ((entriesFrom seen m).map Prod.fst).Nodup := by
  induction m generalizing seen with
  | nil => simp [entriesFrom]
  | cons kv t ih =>
    obtain ⟨k', v'⟩ := kv
    by_cases hs : k' ∈ seen
    · simpa [entriesFrom, hs] using ih seen
    · simp only [entriesFrom, hs, if_false, List.map_cons, List.nodup_cons]
      refine ⟨?_, ih (k' :: seen)⟩
      intro hmem
      obtain ⟨p, hp, hk⟩ := List.mem_map.1 hmem
      obtain ⟨k, v⟩ := p
      simp only at hk
      subst hk
      exact (mem_entriesFrom hp).1 (by simp)

theorem nodup_keys (m : GoMap V) : (keys m).Nodup :=
  nodup_keys_entriesFrom [] m

end GoMap

namespace gitviewfs

variable {H : Type}

open Traced

theorem foldl_resolveStep_error (e : fserror.Error) (segs : List GoString) :
    segs.foldl resolveStep (.error e) = .error e := by
  induction segs with
  | nil => rfl
  | cons s t ih => simpa [List.foldl, resolveStep] using ih

theorem findNodeLoop_cons_none (node : Node) (s : GoString) (t : List GoString)
    (hd : node.asDirNode = none) :
    findNodeLoop node (s :: t) = ⟨.error (fserror.Expected fuse.ENOENT), []⟩ := by
  apply eq_of_result_trace <;> simp [findNodeLoop, hd]

theorem findNodeLoop_cons_error (node : Node) (s : GoString) (t : List GoString)
    (e : fserror.Error) (hd : node.asDirNode = some (.error e)) :
    findNodeLoop node (s :: t) = ⟨.error e, [.children node]⟩ := by
  apply eq_of_result_trace <;> simp [findNodeLoop, hd]

theorem findNodeLoop_cons_missing (node : Node) (s : GoString) (t : List GoString)
    (m : GoMap Node) (hd : node.asDirNode = some (.ok m)) (hg : GoMap.get m s = none) :
    findNodeLoop node (s :: t) =
      ⟨.error (fserror.Expected fuse.ENOENT), [.children node]⟩ := by
  apply eq_of_result_trace <;> simp [findNodeLoop, hd, hg]

theorem findNodeLoop_cons_found (node : Node) (s : GoString) (t : List GoString)
    (m : GoMap Node) (child : Node) (hd : node.asDirNode = some (.ok m))
    (hg : GoMap.get m s = some child) :
    findNodeLoop node (s :: t) =
      ⟨(findNodeLoop child t).result, .children node :: (findNodeLoop child t).trace⟩ := by
  apply eq_of_result_trace <;> simp [findNodeLoop, hd, hg]

theorem findNodeLoop_result_eq_fold (node : Node) (segs : List GoString) :
    (findNodeLoop node segs).result = resolveFold node segs := by
  induction segs generalizing node with
  | nil => rfl
  | cons s t ih =>
    unfold resolveFold at ih ⊢
    cases hd : node.asDirNode with
    | none =>
      rw [findNodeLoop_cons_none node s t hd]
      simp [List.foldl, resolveStep, hd, foldl_resolveStep_error]
    | some c =>
      cases c with
      | error e =>
        rw [findNodeLoop_cons_error node s t e hd]
        simp [List.foldl, resolveStep, hd, foldl_resolveStep_error]
      | ok m =>
        have hg := GoMap.get_eq_find m s
        cases hf : m.find? (fun kv => decide (kv.1 = s)) with
        | none =>
          rw [hf] at hg
          rw [findNodeLoop_cons_missing node s t m hd hg]
          simp [List.foldl, resolveStep, hd, hf, foldl_resolveStep_error]
        | some kv =>
          rw [hf] at hg
          rw [findNodeLoop_cons_found node s t m kv.2 hd hg]
          simp [List.foldl, resolveStep, hd, hf, ih]

theorem findNode_of_ne_nil (f : gitviewfs H) (name : GoString) (hname : name ≠ []) :
    f.findNode name = findNodeLoop f.fstree (strings.Split name strings.slash) := by
  simp [findNode, hname]

theorem findNode_result_of_ne_nil (f : gitviewfs H) (name : GoString) (hname : name ≠ []) :
    (f.findNode name).result = resolveFold f.fstree (strings.Split name strings.slash) := by
  rw [findNode_of_ne_nil f name hname, findNodeLoop_result_eq_fold]

theorem resolveFold_append (root : Node) (xs ys : List GoString) :
    resolveFold root (xs ++ ys) = ys.foldl resolveStep (resolveFold root xs) := by
  simp [resolveFold, List.foldl_append]

theorem resolveFold_missing_key (root : Node) (pre post : List GoString) (seg : GoString)
    (node : Node) (m : GoMap Node) (hpre : resolveFold root pre = .ok node)
    (hnode : node.asDirNode = some (.ok m)) (hkey : ∀ kv ∈ m, kv.1 ≠ seg) :
    resolveFold root (pre ++ seg :: post) = .error (fserror.Expected fuse.ENOENT) := by
  have hfind : m.find? (fun kv => decide (kv.1 = seg)) = none := by
    rw [List.find?_eq_none]
    intro kv hkv
    simpa using hkey kv hkv
  rw [resolveFold_append, hpre]
  simp [List.foldl, resolveStep, hnode, hfind, foldl_resolveStep_error]

theorem resolveFold_below_non_dir (node : Node) (hnode : node.asDirNode = none)
    (segs : List GoString) (hsegs : segs ≠ []) :
    segs.foldl resolveStep (.ok node) = .error (fserror.Expected fuse.ENOENT) := by
  cases segs with
  | nil => exact absurd rfl hsegs
  | cons s t => simp [List.foldl, resolveStep, hnode, foldl_resolveStep_error]

theorem GetAttr_result_of_error (f : gitviewfs H) (name : GoString) (e : fserror.Error)
    (h : (f.findNode name).result = .error e) :
    (f.GetAttr name).result = (none, e.Status) := by
  simp [GetAttr, h]

theorem OpenDir_result_of_error (f : gitviewfs H) (order : RangeOrder) (name : GoString)
    (e : fserror.Error) (h : (f.findNode name).result = .error e) :
    (f.OpenDir order name).result = ([], e.Status) := by
  simp [OpenDir, h]

theorem Open_result_of_error (f : gitviewfs H) (name : GoString) (e : fserror.Error)
    (h : (f.findNode name).result = .error e) :
    (f.Open name).result = (none, e.Status) := by
  simp [Open, h]

theorem Readlink_result_of_error (f : gitviewfs H) (name : GoString) (e : fserror.Error)
    (h : (f.findNode name).result = .error e) :
    (f.Readlink name).result = ([], e.Status) := by
  simp [Readlink, h]

theorem rangeLoop_result (l : List (GoString × Node)) :
    (rangeLoop l).result = l.map (fun p => (dirEntryFor p.1 p.2).result) := by
  induction l with
  | nil => rfl
  | cons p t ih =>
    obtain ⟨k, c⟩ := p
    simp [rangeLoop, ih]

theorem OpenDir_result_of_dir (f : gitviewfs H) (order : RangeOrder) (name : GoString)
    (node : Node) (m : GoMap Node) (h : (f.findNode name).result = .ok node)
    (hnode : node.asDirNode = some (.ok m)) :
    (f.OpenDir order name).result =
      ((order.visit (GoMap.entries m)).map (fun p => (dirEntryFor p.1 p.2).result),
        fuse.OK) := by
  simp [OpenDir, h, hnode, rangeLoop_result]

theorem OpenDir_of_non_dir (f : gitviewfs H) (order : RangeOrder) (name : GoString)
    (node : Node) (h : (f.findNode name).result = .ok node)
    (hnode : node.asDirNode = none) :
    f.OpenDir order name = ⟨([], fuse.ENOTDIR), (f.findNode name).trace⟩ := by
  apply eq_of_result_trace <;> simp [OpenDir, h, hnode]

theorem OpenDir_result_of_failing_dir (f : gitviewfs H) (order : RangeOrder)
    (name : GoString) (node : Node) (e : fserror.Error)
    (h : (f.findNode name).result = .ok node) (hnode : node.asDirNode = some (.error e)) :
    (f.OpenDir order name).result = ([], e.Status) := by
  simp [OpenDir, h, hnode]

theorem findNode_below_non_dir (f : gitviewfs H) (p rest : GoString) (node : Node)
    (hp : p ≠ []) (hres : (f.findNode p).result = .ok node)
    (hnode : node.asDirNode = none) :
    (f.findNode (p ++ strings.slash :: rest)).result =
      .error (fserror.Expected fuse.ENOENT) := by
  have hname : p ++ strings.slash :: rest ≠ [] := by simp
  rw [findNode_result_of_ne_nil f p hp] at hres
  rw [findNode_result_of_ne_nil f _ hname, strings.Split_append_sep, resolveFold_append,
    hres]
  exact resolveFold_below_non_dir node hnode _ (strings.Split_ne_nil rest strings.slash)

theorem dirEntryFor_Name (name : GoString) (child : Node) :
    (dirEntryFor name child).result.Name = name := by
  unfold dirEntryFor
  cases hd : child.asDirNode with
  | some c => rfl
  | none =>
    cases hf : child.asFileNode with
    | none => rfl
    | some file =>
      simp only []
      split <;> rfl

theorem dirEntryFor_Mode_dir (name : GoString) (child : Node)
    (c : Except fserror.Error (GoMap Node)) (hd : child.asDirNode = some c) :
    (dirEntryFor name child).result.Mode = fuse.S_IFDIR ||| 0o555 := by
  simp [dirEntryFor, hd]

theorem dirEntryFor_Mode_file (name : GoString) (child : Node) (file : File)
    (hd : child.asDirNode = none) (hf : child.asFileNode = some file) :
    (dirEntryFor name child).result.Mode = computeFuseFileMode file.Mode := by
  unfold dirEntryFor
  simp only [hd, hf]
  split
  · rfl
  · rename_i h
    have h0 : computeFuseFileMode file.Mode = 0 := by simpa using h
    simp [h0]

theorem OpenDir_names_of_dir (f : gitviewfs H) (order : RangeOrder) (name : GoString)
    (node : Node) (m : GoMap Node) (h : (f.findNode name).result = .ok node)
    (hnode : node.asDirNode = some (.ok m)) :
    ((f.OpenDir order name).result.1.map fuse.DirEntry.Name).Perm (GoMap.keys m) := by
  rw [OpenDir_result_of_dir f order name node m h hnode]
  simp only [List.map_map, GoMap.keys]
  have hfun : (fuse.DirEntry.Name ∘ fun p : GoString × Node => (dirEntryFor p.1 p.2).result)
      = Prod.fst := by
    funext p
    exact dirEntryFor_Name p.1 p.2
  rw [hfun]
  exact (order.visit_perm _).map _

theorem OpenDir_entry_of_dir (f : gitviewfs H) (order : RangeOrder) (name : GoString)
    (node : Node) (m : GoMap Node) (h : (f.findNode name).result = .ok node)
    (hnode : node.asDirNode = some (.ok m))
    (e : fuse.DirEntry) (he : e ∈ (f.OpenDir order name).result.1) :
    ∃ child, GoMap.get m e.Name = some child ∧ e = (dirEntryFor e.Name child).result := by
  rw [OpenDir_result_of_dir f order name node m h hnode] at he
  obtain ⟨p, hp, rfl⟩ := List.mem_map.1 he
  obtain ⟨k, child⟩ := p
  have hmem : (k, child) ∈ GoMap.entries m := (order.visit_perm _).mem_iff.1 hp
  refine ⟨child, ?_, ?_⟩
  · simpa [dirEntryFor_Name] using GoMap.get_of_mem_entries hmem
  · simp [dirEntryFor_Name]

theorem findNodeLoop_append_result (node : Node) (xs ys : List GoString) :
    (findNodeLoop node (xs ++ ys)).result =
      match (findNodeLoop node xs).result with
      | .ok n => (findNodeLoop n ys).result
      | .error e => .error e := by
  induction xs generalizing node with
  | nil => rfl
  | cons x t ih =>
    rw [List.cons_append]
    cases hd : node.asDirNode with
    | none => simp [findNodeLoop_cons_none node x _ hd]
    | some c =>
      cases c with
      | error e => simp [findNodeLoop_cons_error node x _ e hd]
      | ok m =>
        cases hg : GoMap.get m x with
        | none => simp [findNodeLoop_cons_missing node x _ m hd hg]
        | some child => simp [findNodeLoop_cons_found node x _ m child hd hg, ih]

theorem findNodeLoop_append_trace (node : Node) (xs ys : List GoString) :
    (findNodeLoop node (xs ++ ys)).trace =
      (findNodeLoop node xs).trace ++
        match (findNodeLoop node xs).result with
        | .ok n => (findNodeLoop n ys).trace
        | .error _ => [] := by
  induction xs generalizing node with
  | nil => rfl
  | cons x t ih =>
    rw [List.cons_append]
    cases hd : node.asDirNode with
    | none => simp [findNodeLoop_cons_none node x _ hd]
    | some c =>
      cases c with
      | error e => simp [findNodeLoop_cons_error node x _ e hd]
      | ok m =>
        cases hg : GoMap.get m x with
        | none => simp [findNodeLoop_cons_missing node x _ m hd hg]
        | some child => simp [findNodeLoop_cons_found node x _ m child hd hg, ih]

theorem findNode_children_error (f : gitviewfs H) (name : GoString)
    (pre post : List GoString) (seg : GoString) (d : Node) (e : fserror.Error)
    (tr : List Event) (hname : name ≠ [])
    (hsplit : strings.Split name strings.slash = pre ++ seg :: post)
    (hpre : findNodeLoop f.fstree pre = ⟨.ok d, tr⟩)
    (hd : d.asDirNode = some (.error e)) :
    f.findNode name = ⟨.error e, tr ++ [.children d]⟩ := by
  rw [findNode_of_ne_nil f name hname, hsplit]
  apply eq_of_result_trace
  · rw [findNodeLoop_append_result, hpre]
    simp [findNodeLoop_cons_error d seg post e hd]
  · rw [findNodeLoop_append_trace, hpre]
    simp [findNodeLoop_cons_error d seg post e hd]

theorem findNodeLoop_trace_children (node : Node) (segs : List GoString) :
    ∀ ev ∈ (findNodeLoop node segs).trace, ∃ a, ev = .children a := by
  induction segs generalizing node with
  | nil => simp [findNodeLoop]
  | cons x t ih =>
    cases hd : node.asDirNode with
    | none => simp [findNodeLoop_cons_none node x t hd]
    | some c =>
      cases c with
      | error e => simp [findNodeLoop_cons_error node x t e hd]
      | ok m =>
        cases hg : GoMap.get m x with
        | none => simp [findNodeLoop_cons_missing node x t m hd hg]
        | some child =>
          intro ev hev
          rw [findNodeLoop_cons_found node x t m child hd hg] at hev
          rcases List.mem_cons.1 hev with rfl | hev
          · exact ⟨_, rfl⟩
          · exact ih child ev hev

theorem findNode_trace_children (f : gitviewfs H) (name : GoString) :
    ∀ ev ∈ (f.findNode name).trace, ∃ a, ev = .children a := by
  unfold findNode
  split
  · simp
  · exact findNodeLoop_trace_children _ _

theorem sizeOf_child_lt {node : Node} {m : GoMap Node} {k : GoString} {child : Node}
    (hd : node.asDirNode = some (.ok m)) (h : GoMap.get m k = some child) :
    sizeOf child < sizeOf node := by
  have h1 := List.sizeOf_lt_of_mem (GoMap.mem_of_get h)
  cases node with
  | dir c =>
    have hc : c = .ok m := by simpa [Node.asDirNode] using hd
    subst hc
    simp only [Node.dir.sizeOf_spec, Except.ok.sizeOf_spec, Prod.mk.sizeOf_spec] at h1 ⊢
    omega
  | both c file =>
    have hc : c = .ok m := by simpa [Node.asDirNode] using hd
    subst hc
    simp only [Node.both.sizeOf_spec, Except.ok.sizeOf_spec, Prod.mk.sizeOf_spec] at h1 ⊢
    omega
  | file file => simp [Node.asDirNode] at hd
  | other => simp [Node.asDirNode] at hd

theorem findNodeLoop_sizeOf_le (node target : Node) (segs : List GoString)
    (h : (findNodeLoop node segs).result = .ok target) : sizeOf target ≤ sizeOf node := by
  induction segs generalizing node with
  | nil =>
    have ht : node = target := by simpa [findNodeLoop] using h
    rw [ht]
  | cons x t ih =>
    cases hd : node.asDirNode with
    | none => simp [findNodeLoop_cons_none node x t hd] at h
    | some c =>
      cases c with
      | error e => simp [findNodeLoop_cons_error node x t e hd] at h
      | ok m =>
        cases hg : GoMap.get m x with
        | none => simp [findNodeLoop_cons_missing node x t m hd hg] at h
        | some child =>
          rw [findNodeLoop_cons_found node x t m child hd hg] at h
          exact Nat.le_of_lt (Nat.lt_of_le_of_lt (ih child h) (sizeOf_child_lt hd hg))

theorem findNodeLoop_trace_above (node target : Node) (segs : List GoString)
    (h : (findNodeLoop node segs).result = .ok target) :
    ∀ ev ∈ (findNodeLoop node segs).trace,
      ∃ a, ev = .children a ∧ sizeOf target < sizeOf a := by
  induction segs generalizing node with
  | nil => simp [findNodeLoop]
  | cons x t ih =>
    cases hd : node.asDirNode with
    | none => simp [findNodeLoop_cons_none node x t hd] at h
    | some c =>
      cases c with
      | error e => simp [findNodeLoop_cons_error node x t e hd] at h
      | ok m =>
        cases hg : GoMap.get m x with
        | none => simp [findNodeLoop_cons_missing node x t m hd hg] at h
        | some child =>
          rw [findNodeLoop_cons_found node x t m child hd hg] at h ⊢
          intro ev hev
          rcases List.mem_cons.1 hev with rfl | hev
          · exact ⟨_, rfl, Nat.lt_of_le_of_lt (findNodeLoop_sizeOf_le child target t h)
              (sizeOf_child_lt hd hg)⟩
          · exact ih child h ev hev

theorem findNode_trace_not_target (f : gitviewfs H) (name : GoString) (target : Node)
    (h : (f.findNode name).result = .ok target) :
    Event.children target ∉ (f.findNode name).trace := by
  intro hmem
  by_cases hname : name = []
  · simp [findNode, hname] at hmem
  · rw [findNode_of_ne_nil f name hname] at h hmem
    obtain ⟨a, ha, hlt⟩ := findNodeLoop_trace_above _ _ _ h _ hmem
    have : target = a := by injection ha
    subst this
    exact Nat.lt_irrefl _ hlt

theorem findNode_nil_result (f : gitviewfs H) : (f.findNode []).result = .ok f.fstree := by
  simp [findNode]

theorem findNodeLoop_single (node target : Node) (s : GoString) :
    (findNodeLoop node [s]).result = .ok target ↔
      ∃ m, node.asDirNode = some (.ok m) ∧ GoMap.get m s = some target := by
  cases hd : node.asDirNode with
  | none => simp [findNodeLoop_cons_none node s [] hd]
  | some c =>
    cases c with
    | error e => simp [findNodeLoop_cons_error node s [] e hd]
    | ok m =>
      cases hg : GoMap.get m s with
      | none => simp [findNodeLoop_cons_missing node s [] m hd hg, hg]
      | some child =>
        rw [findNodeLoop_cons_found node s [] m child hd hg]
        simp [findNodeLoop, hg]

theorem findNode_append_result (f : gitviewfs H) (p q : GoString) (hp : p ≠ []) :
    (f.findNode (p ++ strings.slash :: q)).result =
      match (f.findNode p).result with
      | .ok n => (findNodeLoop n (strings.Split q strings.slash)).result
      | .error e => .error e := by
  have hname : p ++ strings.slash :: q ≠ [] := by simp
  rw [findNode_of_ne_nil f _ hname, findNode_of_ne_nil f p hp, strings.Split_append_sep,
    findNodeLoop_append_result]

theorem findNode_append_trace (f : gitviewfs H) (p q : GoString) (hp : p ≠ []) :
    (f.findNode (p ++ strings.slash :: q)).trace =
      (f.findNode p).trace ++
        match (f.findNode p).result with
        | .ok n => (findNodeLoop n (strings.Split q strings.slash)).trace
        | .error _ => [] := by
  have hname : p ++ strings.slash :: q ≠ [] := by simp
  rw [findNode_of_ne_nil f _ hname, findNode_of_ne_nil f p hp, strings.Split_append_sep,
    findNodeLoop_append_trace]

theorem findNode_joinPath_result (f : gitviewfs H) (P s : GoString)
    (hs : P = [] → s ≠ []) (hslash : strings.slash ∉ s) :
    (f.findNode (joinPath P s)).result =
      match (f.findNode P).result with
      | .ok n => (findNodeLoop n [s]).result
      | .error e => .error e := by
  by_cases hP : P = []
  · subst hP
    have hne : s ≠ [] := hs rfl
    simp only [joinPath, if_true]
    rw [findNode_of_ne_nil f s hne, strings.Split_of_not_mem s _ hslash, findNode_nil_result]
  · simp only [joinPath, hP, if_false]
    rw [findNode_append_result f P s hP, strings.Split_of_not_mem s _ hslash]

theorem findNodeLoop_empty_segment (node : Node) (post : List GoString)
    (hnode : node.asDirNode = none ∨
      ∃ m, node.asDirNode = some (.ok m) ∧ GoMap.get m [] = none) :
    (findNodeLoop node ([] :: post)).result = .error (fserror.Expected fuse.ENOENT) := by
  rcases hnode with h | ⟨m, hd, hm⟩
  · rw [findNodeLoop_cons_none node [] post h]
  · rw [findNodeLoop_cons_missing node [] post m hd hm]

theorem findNodeLoop_segment_found (node : Node) (m : GoMap Node) (seg : GoString)
    (child : Node) (post : List GoString) (hd : node.asDirNode = some (.ok m))
    (h : GoMap.get m seg = some child) :
    (findNodeLoop node (seg :: post)).result = (findNodeLoop child post).result := by
  rw [findNodeLoop_cons_found node seg post m child hd h]

/-! ## The claims -/

/-- C1, evaluated on the code: listing the root of the example tree, whose children `sub`
(a file of mode Submodule) and `odd` (a node of neither capability) have no translation,
returns status OK and, in whatever order the children are visited, one entry per child:
the two children without a translation are listed too, with mode 0. -/
theorem OpenDir_lists_untranslatable_children (order : RangeOrder) :
    ((Example.fs Example.tree).OpenDir order []).result.2 = fuse.OK ∧
    ((Example.fs Example.tree).OpenDir order []).result.1.Perm
      [⟨str "docs", 0o040555⟩, ⟨str "run.sh", 0o100555⟩, ⟨str "link", 0o120444⟩,
        ⟨str "sub", 0⟩, ⟨str "odd", 0⟩] := by
  have h := OpenDir_result_of_dir (Example.fs Example.tree) order [] Example.tree
    Example.children rfl rfl
  rw [h]
  refine ⟨rfl, ?_⟩
  exact (order.visit_perm _).map _

/-- C2: for a non-empty path, `findNode` returns what the reference left fold over the
`/`-separated segments returns (each step requires a Directory, fetches its children and
looks the segment up by exact key equality); and as soon as a segment equals no key of
the directory reached, the result is the expected error ENOENT, an error with status
ENOENT and no unexpected cause, whatever the later segments are. -/
theorem findNode_eq_resolveFold (f : gitviewfs H) (name : GoString) (hname : name ≠ []) :
    (f.findNode name).result = resolveFold f.fstree (strings.Split name strings.slash) ∧
    (∀ (pre post : List GoString) (seg : GoString) (node : Node) (m : GoMap Node),
      strings.Split name strings.slash = pre ++ seg :: post →
      resolveFold f.fstree pre = .ok node →
      node.asDirNode = some (.ok m) →
      (∀ kv ∈ m, kv.1 ≠ seg) →
      (f.findNode name).result = .error (fserror.Expected fuse.ENOENT)) ∧
    (fserror.Expected fuse.ENOENT).Status = fuse.ENOENT ∧
    (fserror.Expected fuse.ENOENT).UnexpectedErr = none := by
  refine ⟨findNode_result_of_ne_nil f name hname, ?_, rfl, rfl⟩
  intro pre post seg node m hsplit hpre hnode hkey
  rw [findNode_result_of_ne_nil f name hname, hsplit]
  exact resolveFold_missing_key f.fstree pre post seg node m hpre hnode hkey

/-- Witness for C2 on the example tree: `docs/readme.txt` resolves to what the fold
returns, and `docs/README.txt`, which differs from a key only by case, is not found. -/
theorem findNode_eq_resolveFold_witness :
    ((Example.fs Example.tree).findNode (str "docs/readme.txt")).result =
      resolveFold Example.tree (strings.Split (str "docs/readme.txt") strings.slash) ∧
    ((Example.fs Example.tree).findNode (str "docs/README.txt")).result =
      .error (fserror.Expected fuse.ENOENT) :=
  ⟨(findNode_eq_resolveFold (Example.fs Example.tree) (str "docs/readme.txt")
      (by decide)).1,
    (findNode_eq_resolveFold (Example.fs Example.tree) (str "docs/README.txt")
      (by decide)).2.1 [str "docs"] [] (str "README.txt")
      (.dir (.ok [(str "readme.txt", .file (Example.blob filemode.Regular))]))
      [(str "readme.txt", .file (Example.blob filemode.Regular))] (by decide) rfl rfl
      (by intro kv hkv; simp at hkv; subst hkv; decide)⟩

/-- C3: when a non-empty path `p` resolves to a node that is not a Directory, every path
`p + "/" + rest` fails to resolve with the expected error ENOENT, whatever `rest` is, and
`GetAttr`, `OpenDir`, `Open` and `Readlink` on that path all return ENOENT with no result
value. -/
theorem findNode_below_file_is_ENOENT (f : gitviewfs H) (order : RangeOrder)
    (p rest : GoString) (node : Node) (hp : p ≠ [])
    (hres : (f.findNode p).result = .ok node) (hnode : node.asDirNode = none) :
    (f.findNode (p ++ strings.slash :: rest)).result =
      .error (fserror.Expected fuse.ENOENT) ∧
    (f.GetAttr (p ++ strings.slash :: rest)).result = (none, fuse.ENOENT) ∧
    (f.OpenDir order (p ++ strings.slash :: rest)).result = ([], fuse.ENOENT) ∧
    (f.Open (p ++ strings.slash :: rest)).result = (none, fuse.ENOENT) ∧
    (f.Readlink (p ++ strings.slash :: rest)).result = ([], fuse.ENOENT) := by
  have h := findNode_below_non_dir f p rest node hp hres hnode
  exact ⟨h, GetAttr_result_of_error f _ _ h, OpenDir_result_of_error f order _ _ h,
    Open_result_of_error f _ _ h, Readlink_result_of_error f _ _ h⟩

/-- Witness for C3 on the example tree: `run.sh` is a File, so `run.sh/x` is not found
by any of the operations. -/
theorem findNode_below_file_is_ENOENT_witness :
    ((Example.fs Example.tree).findNode (str "run.sh/x")).result =
      .error (fserror.Expected fuse.ENOENT) ∧
    ((Example.fs Example.tree).GetAttr (str "run.sh/x")).result = (none, fuse.ENOENT) ∧
    ((Example.fs Example.tree).OpenDir RangeOrder.stored (str "run.sh/x")).result =
      ([], fuse.ENOENT) ∧
    ((Example.fs Example.tree).Open (str "run.sh/x")).result = (none, fuse.ENOENT) ∧
    ((Example.fs Example.tree).Readlink (str "run.sh/x")).result = ([], fuse.ENOENT) :=
  findNode_below_file_is_ENOENT (Example.fs Example.tree) RangeOrder.stored (str "run.sh")
    (str "x") (.file (Example.blob filemode.Executable)) (by decide) rfl rfl

/-- C4: for every root, `findNode("")` returns the root itself with no error and makes no
call at all: in particular `Children()` is called on no node, so the result does not
depend on what the root's `Children()` would return. -/
theorem findNode_empty_path (f : gitviewfs H) :
    f.findNode [] = ⟨.ok f.fstree, []⟩ := by
  simp [findNode]
  rfl

/-- C5: `computeFuseFileMode` is the translation table: Regular gives S_IFREG|0444,
Executable gives S_IFREG|0555, Symlink gives S_IFLNK|0444, and every other mode (Dir,
Submodule, Deprecated, Empty or any other value) gives 0; so the result is non-zero
exactly for Regular, Executable and Symlink, and never has a write bit (0222). -/
theorem computeFuseFileMode_table :
    computeFuseFileMode filemode.Regular = fuse.S_IFREG ||| 0o444 ∧
    computeFuseFileMode filemode.Executable = fuse.S_IFREG ||| 0o555 ∧
    computeFuseFileMode filemode.Symlink = fuse.S_IFLNK ||| 0o444 ∧
    computeFuseFileMode filemode.Dir = 0 ∧
    computeFuseFileMode filemode.Submodule = 0 ∧
    computeFuseFileMode filemode.Deprecated = 0 ∧
    computeFuseFileMode filemode.Empty = 0 ∧
    (∀ mode : filemode.FileMode, mode ≠ filemode.Regular → mode ≠ filemode.Executable →
      mode ≠ filemode.Symlink → computeFuseFileMode mode = 0) ∧
    (∀ mode : filemode.FileMode, computeFuseFileMode mode ≠ 0 ↔
      (mode = filemode.Regular ∨ mode = filemode.Executable ∨ mode = filemode.Symlink)) ∧
    (∀ mode : filemode.FileMode, computeFuseFileMode mode &&& 0o222 = 0) := by
  refine ⟨by decide, by decide, by decide, by decide, by decide, by decide, by decide,
    ?_, ?_, ?_⟩
  · intro mode h1 h2 h3
    simp [computeFuseFileMode, h1, h2, h3]
  · intro mode
    unfold computeFuseFileMode
    split_ifs with h1 h2 h3
    · subst h1; exact ⟨fun _ => Or.inl rfl, fun _ => by decide⟩
    · subst h2; exact ⟨fun _ => Or.inr (Or.inr rfl), fun _ => by decide⟩
    · subst h3; exact ⟨fun _ => Or.inr (Or.inl rfl), fun _ => by decide⟩
    · exact ⟨fun h => absurd rfl h, fun h => by rcases h with h | h | h <;> contradiction⟩
  · intro mode
    unfold computeFuseFileMode
    split_ifs <;> decide

/-- C6: when the path resolves to a Directory whose `Children()` returns the mapping `m`
and every child is a Directory or a File of a recognized mode, `OpenDir` returns status OK
and one entry per key of `m`: the names of the entries are a permutation of the keys (which
are distinct, so no name is repeated and none is extra, and there are as many entries as
keys), the entry of a Directory child has mode S_IFDIR|0555, and the entry of a File child
(one that is not a Directory as well) has mode `computeFuseFileMode` of the file's mode,
which is not 0. -/
theorem OpenDir_lists_every_child (f : gitviewfs H) (order : RangeOrder) (name : GoString)
    (node : Node) (m : GoMap Node) (hres : (f.findNode name).result = .ok node)
    (hnode : node.asDirNode = some (.ok m))
    (hchildren : ∀ key child, GoMap.get m key = some child →
      (∃ c, child.asDirNode = some c) ∨
      (∃ file, child.asFileNode = some file ∧ (file.Mode = filemode.Regular ∨
        file.Mode = filemode.Executable ∨ file.Mode = filemode.Symlink))) :
    (f.OpenDir order name).result.2 = fuse.OK ∧
    ((f.OpenDir order name).result.1.map fuse.DirEntry.Name).Perm (GoMap.keys m) ∧
    (GoMap.keys m).Nodup ∧
    (f.OpenDir order name).result.1.length = (GoMap.keys m).length ∧
    (∀ e ∈ (f.OpenDir order name).result.1, ∃ child, GoMap.get m e.Name = some child ∧
      ((∃ c, child.asDirNode = some c) ∧ e.Mode = fuse.S_IFDIR ||| 0o555 ∨
       (child.asDirNode = none ∧ ∃ file, child.asFileNode = some file ∧
          e.Mode = computeFuseFileMode file.Mode ∧ e.Mode ≠ 0))) := by
  have hperm := OpenDir_names_of_dir f order name node m hres hnode
  refine ⟨?_, hperm, GoMap.nodup_keys m, ?_, ?_⟩
  · rw [OpenDir_result_of_dir f order name node m hres hnode]
  · simpa using hperm.length_eq
  · intro e he
    obtain ⟨child, hget, heq⟩ := OpenDir_entry_of_dir f order name node m hres hnode e he
    refine ⟨child, hget, ?_⟩
    cases hd : child.asDirNode with
    | some c =>
      left
      refine ⟨⟨c, rfl⟩, ?_⟩
      rw [heq]
      exact dirEntryFor_Mode_dir _ child c hd
    | none =>
      right
      rcases hchildren e.Name child hget with ⟨c, hc⟩ | ⟨file, hfile, hmode⟩
      · rw [hd] at hc
        cases hc
      · have hm : e.Mode = computeFuseFileMode file.Mode := by
          rw [heq]
          exact dirEntryFor_Mode_file _ child file hd hfile
        refine ⟨rfl, file, hfile, hm, ?_⟩
        rw [hm]
        rcases hmode with h | h | h <;> rw [h] <;> decide

/-- Witness for C6 on the scenario's tree, its children visited last to first: the listing
of the root has status OK and its names are a permutation of `docs`, `run.sh`, `link`. -/
theorem OpenDir_lists_every_child_witness :
    ((Example.fs Example.cleanTree).OpenDir RangeOrder.reversed []).result.2 = fuse.OK ∧
    (((Example.fs Example.cleanTree).OpenDir RangeOrder.reversed []).result.1.map
      fuse.DirEntry.Name).Perm (GoMap.keys Example.cleanChildren) ∧
    (GoMap.keys Example.cleanChildren).Nodup ∧
    ((Example.fs Example.cleanTree).OpenDir RangeOrder.reversed []).result.1.length =
      (GoMap.keys Example.cleanChildren).length ∧
    (∀ e ∈ ((Example.fs Example.cleanTree).OpenDir RangeOrder.reversed []).result.1,
      ∃ child, GoMap.get Example.cleanChildren e.Name = some child ∧
      ((∃ c, child.asDirNode = some c) ∧ e.Mode = fuse.S_IFDIR ||| 0o555 ∨
       (child.asDirNode = none ∧ ∃ file, child.asFileNode = some file ∧
          e.Mode = computeFuseFileMode file.Mode ∧ e.Mode ≠ 0))) :=
  OpenDir_lists_every_child (Example.fs Example.cleanTree) RangeOrder.reversed []
    Example.cleanTree Example.cleanChildren rfl rfl (by
      intro key child h
      have hm := GoMap.mem_of_get h
      simp only [Example.cleanChildren, List.mem_cons, Prod.mk.injEq, List.mem_nil_iff,
        or_false] at hm
      rcases hm with ⟨-, rfl⟩ | ⟨-, rfl⟩ | ⟨-, rfl⟩
      · exact Or.inl ⟨_, rfl⟩
      · exact Or.inr ⟨_, rfl, Or.inr (Or.inl rfl)⟩
      · exact Or.inr ⟨_, rfl, Or.inr (Or.inr rfl)⟩)

/-- C7: when the descent of `findNode`, after the segments `pre`, is at a Directory whose
`Children()` fails with `e` and a segment is still to be looked up, `findNode` returns
exactly `e` and its last call is that `Children()`, whatever the later segments are;
`GetAttr`, `OpenDir`, `Open` and `Readlink` return the status of `e` and no result value.
Likewise `OpenDir` returns the status of `e` when the path resolves to a Directory whose
own `Children()` fails with `e`. -/
theorem Children_error_is_propagated (f : gitviewfs H) (order : RangeOrder)
    (name : GoString) (pre post : List GoString) (seg : GoString) (d : Node)
    (e : fserror.Error) (tr : List Event) (hname : name ≠ [])
    (hsplit : strings.Split name strings.slash = pre ++ seg :: post)
    (hpre : findNodeLoop f.fstree pre = ⟨.ok d, tr⟩)
    (hd : d.asDirNode = some (.error e)) :
    f.findNode name = ⟨.error e, tr ++ [.children d]⟩ ∧
    (f.GetAttr name).result = (none, e.Status) ∧
    (f.OpenDir order name).result = ([], e.Status) ∧
    (f.Open name).result = (none, e.Status) ∧
    (f.Readlink name).result = ([], e.Status) ∧
    (∀ (dirName : GoString) (dirNode : Node), (f.findNode dirName).result = .ok dirNode →
      dirNode.asDirNode = some (.error e) →
      (f.OpenDir order dirName).result = ([], e.Status)) := by
  have h := findNode_children_error f name pre post seg d e tr hname hsplit hpre hd
  have hr : (f.findNode name).result = .error e := by rw [h]
  exact ⟨h, GetAttr_result_of_error f _ _ hr, OpenDir_result_of_error f order _ _ hr,
    Open_result_of_error f _ _ hr, Readlink_result_of_error f _ _ hr,
    fun dirName dirNode hn hdn =>
      OpenDir_result_of_failing_dir f order dirName dirNode e hn hdn⟩

/-- Witness for C7 on the tree whose directory `broken` cannot be enumerated: resolving
`broken/a/b` stops at `broken` with its error, and listing `broken` returns its status. -/
theorem Children_error_is_propagated_witness :
    (Example.fs Example.brokenTree).findNode (str "broken/a/b") =
      ⟨.error Example.brokenError,
        [.children Example.brokenTree] ++ [.children (.dir (.error Example.brokenError))]⟩ ∧
    ((Example.fs Example.brokenTree).GetAttr (str "broken/a/b")).result =
      (none, fuse.EIO) ∧
    ((Example.fs Example.brokenTree).OpenDir RangeOrder.stored (str "broken")).result =
      ([], fuse.EIO) :=
  have h := Children_error_is_propagated (Example.fs Example.brokenTree) RangeOrder.stored
    (str "broken/a/b") [str "broken"] [str "b"] (str "a")
    (.dir (.error Example.brokenError)) Example.brokenError
    [.children Example.brokenTree] (by decide) (by decide) rfl rfl
  ⟨h.1, h.2.1, h.2.2.2.2.2 (str "broken") _ rfl rfl⟩

/-- C8 as stated fails on the code: in the tree whose child `dual` satisfies both
`fstree.DirNode` and `fstree.FileNode`, the path `dual` resolves to a Directory (`GetAttr`
reports the directory attribute for it), yet `Open` returns a file handle with status OK
and `Readlink` returns the link target with status OK, neither of them EINVAL. -/
theorem Open_on_directory_with_file_capability :
    ((Example.fs Example.dualTree).findNode (str "dual")).result = .ok Example.dual ∧
    Node.asDirNode Example.dual =
      some (.ok [(str "inner", .file (Example.blob filemode.Regular))]) ∧
    ((Example.fs Example.dualTree).GetAttr (str "dual")).result =
      (some ⟨0, 0, 0, 0, 0, 0, 0, 0, 0, 0o040555, 0, 0, 0, 0, 0, 0⟩, fuse.OK) ∧
    ((Example.fs Example.dualTree).Open (str "dual")).result =
      (some Example.dual, fuse.OK) ∧
    ((Example.fs Example.dualTree).Readlink (str "dual")).result =
      ([114, 117, 110, 10], fuse.OK) ∧
    fuse.OK ≠ fuse.EINVAL :=
  ⟨rfl, rfl, rfl, rfl, rfl, by decide⟩

/-- C8, amended: an operation applied to a node without the capability it needs fails
with EINVAL, which is not ENOENT. When the path resolves to a node that is not a File (a
Directory that is not a File as well, or a node of neither capability), `Open` returns
EINVAL and no file handle, and `Readlink` returns EINVAL and the empty string; when it
resolves to a File whose mode is not Symlink, `Readlink` returns EINVAL and the empty
string. In each case no call is made beyond those of the resolution and one diagnostic,
so no content reader is opened. -/
theorem wrong_capability_is_EINVAL (f : gitviewfs H) (name : GoString) (node : Node)
    (hres : (f.findNode name).result = .ok node) :
    fuse.EINVAL ≠ fuse.ENOENT ∧
    (node.asFileNode = none →
      f.Open name = ⟨(none, fuse.EINVAL), (f.findNode name).trace⟩ ∧
      f.Readlink name = ⟨([], fuse.EINVAL),
        (f.findNode name).trace ++ [.printf "expected file node at: %s"]⟩ ∧
      ∀ other : File, Event.openReader other ∉ (f.Readlink name).trace) ∧
    (∀ file, node.asFileNode = some file → file.Mode ≠ filemode.Symlink →
      f.Readlink name = ⟨([], fuse.EINVAL),
        (f.findNode name).trace ++ [.printf "expected symlink at: %s"]⟩ ∧
      ∀ other : File, Event.openReader other ∉ (f.Readlink name).trace) := by
  have hno : ∀ (other : File) (msg : String),
      Event.openReader other ∉ (f.findNode name).trace ++ [.printf msg] := by
    intro other msg hmem
    rcases List.mem_append.1 hmem with h | h
    · obtain ⟨a, ha⟩ := findNode_trace_children f name _ h
      cases ha
    · simp at h
  refine ⟨by decide, ?_, ?_⟩
  · intro hfile
    have hR : f.Readlink name = ⟨([], fuse.EINVAL),
        (f.findNode name).trace ++ [.printf "expected file node at: %s"]⟩ := by
      apply eq_of_result_trace <;> simp [Readlink, hres, hfile]
    refine ⟨?_, hR, ?_⟩
    · apply eq_of_result_trace <;> simp [Open, hres, hfile]
    · intro other
      rw [hR]
      exact hno other _
  · intro file hfile hmode
    have hR : f.Readlink name = ⟨([], fuse.EINVAL),
        (f.findNode name).trace ++ [.printf "expected symlink at: %s"]⟩ := by
      apply eq_of_result_trace <;> simp [Readlink, hres, hfile, hmode]
    refine ⟨hR, ?_⟩
    intro other
    rw [hR]
    exact hno other _

/-- Witness for C8 on the example tree: `Open` and `Readlink` on the directory `docs`, and
`Readlink` on the executable file `run.sh`, return EINVAL. -/
theorem wrong_capability_is_EINVAL_witness :
    ((Example.fs Example.tree).Open (str "docs")).result = (none, fuse.EINVAL) ∧
    ((Example.fs Example.tree).Readlink (str "docs")).result = ([], fuse.EINVAL) ∧
    ((Example.fs Example.tree).Readlink (str "run.sh")).result = ([], fuse.EINVAL) :=
  ⟨congrArg Traced.result
      ((wrong_capability_is_EINVAL (Example.fs Example.tree) (str "docs") _ rfl).2.1
        rfl).1,
    congrArg Traced.result
      ((wrong_capability_is_EINVAL (Example.fs Example.tree) (str "docs") _ rfl).2.1
        rfl).2.1,
    congrArg Traced.result
      ((wrong_capability_is_EINVAL (Example.fs Example.tree) (str "run.sh") _ rfl).2.2
        (Example.blob filemode.Executable) rfl (by decide)).1⟩

/-- C9: when the path resolves to a File of mode Symlink whose content reader opens and
whose content is read to the end without error, yielding the bytes `T`, `Readlink` returns
status OK and exactly `T`; the reader is opened, read and closed, in that order. -/
theorem Readlink_returns_content (f : gitviewfs H) (name : GoString) (node : Node)
    (file : File) (reader : Reader) (T : List UInt8)
    (hres : (f.findNode name).result = .ok node)
    (hfile : node.asFileNode = some file)
    (hmode : file.Mode = filemode.Symlink)
    (hopen : file.Reader = .ok reader)
    (hread : ioutil.ReadAll reader = (T, none)) :
    f.Readlink name = ⟨(T, fuse.OK),
      (f.findNode name).trace ++ [.openReader file, .readAll reader, .close reader]⟩ := by
  apply eq_of_result_trace <;>
    simp [Readlink, hres, hfile, hmode, hopen, hread]

/-- Witness for C9 on the example tree: the link target of `link` is the four bytes of
its content, the final newline included. -/
theorem Readlink_returns_content_witness :
    ((Example.fs Example.tree).Readlink (str "link")).result =
      ([114, 117, 110, 10], fuse.OK) :=
  congrArg Traced.result
    (Readlink_returns_content (Example.fs Example.tree) (str "link")
      (.file (Example.blob filemode.Symlink)) (Example.blob filemode.Symlink)
      ⟨[[114, 117], [110, 10]], none⟩ [114, 117, 110, 10] rfl rfl rfl rfl rfl)

/-- C10: when the path resolves to a Directory, `GetAttr` returns status OK and the
attribute whose mode is S_IFDIR|0555 and whose other fields are all zero, whatever the
directory's children are; that mode has no write bit; and `GetAttr` makes no call beyond
those of the resolution, none of which is `Children()` on the resolved node. -/
theorem GetAttr_directory (f : gitviewfs H) (name : GoString) (node : Node)
    (c : Except fserror.Error (GoMap Node))
    (hres : (f.findNode name).result = .ok node) (hdir : node.asDirNode = some c) :
    f.GetAttr name =
      ⟨(some ⟨0, 0, 0, 0, 0, 0, 0, 0, 0, fuse.S_IFDIR ||| 0o555, 0, 0, 0, 0, 0, 0⟩, fuse.OK),
        (f.findNode name).trace⟩ ∧
    (fuse.S_IFDIR ||| 0o555) &&& 0o222 = 0 ∧
    Event.children node ∉ (f.GetAttr name).trace := by
  have hG : f.GetAttr name =
      ⟨(some ⟨0, 0, 0, 0, 0, 0, 0, 0, 0, fuse.S_IFDIR ||| 0o555, 0, 0, 0, 0, 0, 0⟩, fuse.OK),
        (f.findNode name).trace⟩ := by
    apply eq_of_result_trace <;> simp [GetAttr, hres, hdir]
  refine ⟨hG, by decide, ?_⟩
  rw [hG]
  exact findNode_trace_not_target f name _ hres

/-- Witness for C10 on the example tree: the attribute of `docs` has mode 040555. -/
theorem GetAttr_directory_witness :
    ((Example.fs Example.tree).GetAttr (str "docs")).result =
      (some ⟨0, 0, 0, 0, 0, 0, 0, 0, 0, 0o040555, 0, 0, 0, 0, 0, 0⟩, fuse.OK) :=
  congrArg Traced.result
    (GetAttr_directory (Example.fs Example.tree) (str "docs") _ _ rfl rfl).1

/-- C11: when the path resolves to a File of mode Symlink, `Readlink` returns EIO and the
empty string if the content reader cannot be opened, and also if reading it to the end
fails, whatever bytes were read before the failure: those bytes are not returned. A
reader that was opened is closed. -/
theorem Readlink_failure_gives_no_target (f : gitviewfs H) (name : GoString)
    (node : Node) (file : File)
    (hres : (f.findNode name).result = .ok node)
    (hfile : node.asFileNode = some file)
    (hmode : file.Mode = filemode.Symlink) :
    (∀ err, file.Reader = .error err →
      f.Readlink name = ⟨([], fuse.EIO), (f.findNode name).trace ++
        [.openReader file, .printf "error creating file reader: %s"]⟩) ∧
    (∀ reader partialBytes err, file.Reader = .ok reader →
      ioutil.ReadAll reader = (partialBytes, some err) →
      f.Readlink name = ⟨([], fuse.EIO), (f.findNode name).trace ++
        [.openReader file, .readAll reader, .printf "error reading file: %s",
          .close reader]⟩) := by
  constructor
  · intro err hopen
    apply eq_of_result_trace <;> simp [Readlink, hres, hfile, hmode, hopen]
  · intro reader partialBytes err hopen hread
    apply eq_of_result_trace <;>
      simp [Readlink, hres, hfile, hmode, hopen, hread]

/-- Witness for C11 on the tree of unreadable links: `dead` cannot be opened and `cut`
fails after two bytes were read; `Readlink` returns EIO and the empty string for both. -/
theorem Readlink_failure_gives_no_target_witness :
    ((Example.fs Example.linkTree).Readlink (str "dead")).result = ([], fuse.EIO) ∧
    ((Example.fs Example.linkTree).Readlink (str "cut")).result = ([], fuse.EIO) :=
  ⟨congrArg Traced.result
      ((Readlink_failure_gives_no_target (Example.fs Example.linkTree) (str "dead")
        (.file Example.deadLink) Example.deadLink rfl rfl rfl).1 "object not found" rfl),
    congrArg Traced.result
      ((Readlink_failure_gives_no_target (Example.fs Example.linkTree) (str "cut")
        (.file Example.cutLink) Example.cutLink rfl rfl rfl).2
        ⟨[[114, 117]], some "unexpected EOF"⟩ [114, 117] "unexpected EOF" rfl rfl)⟩

/-- C12: when the path resolves to a node that is neither a Directory nor a File,
`GetAttr` returns ENOENT, which is not OK, and no attribute; it makes one diagnostic call
after the resolution and nothing else. -/
theorem GetAttr_neither_is_ENOENT (f : gitviewfs H) (name : GoString) (node : Node)
    (hres : (f.findNode name).result = .ok node)
    (hdir : node.asDirNode = none) (hfile : node.asFileNode = none) :
    f.GetAttr name =
      ⟨(none, fuse.ENOENT), (f.findNode name).trace ++ [.printf "skipping node: %v"]⟩ ∧
    (f.GetAttr name).result.2 ≠ fuse.OK := by
  have hG : f.GetAttr name =
      ⟨(none, fuse.ENOENT), (f.findNode name).trace ++ [.printf "skipping node: %v"]⟩ := by
    apply eq_of_result_trace <;> simp [GetAttr, hres, hdir, hfile]
  refine ⟨hG, ?_⟩
  rw [hG]
  show fuse.ENOENT ≠ fuse.OK
  decide

/-- Witness for C12 on the example tree: `odd` is a node of neither capability. -/
theorem GetAttr_neither_is_ENOENT_witness :
    ((Example.fs Example.tree).GetAttr (str "odd")).result = (none, fuse.ENOENT) :=
  congrArg Traced.result
    (GetAttr_neither_is_ENOENT (Example.fs Example.tree) (str "odd") .other rfl rfl rfl).1

/-- C13 as stated fails on the code: in the tree whose directory `ghost` cannot be
enumerated, the path `ghost` resolves (to that Directory), and `OpenDir` returns ENOENT
all the same, the status with which the directory's own `Children()` fails. -/
theorem OpenDir_ENOENT_after_resolution :
    ((Example.fs Example.ghostTree).findNode (str "ghost")).result =
      .ok (.dir (.error (fserror.Expected fuse.ENOENT))) ∧
    ((Example.fs Example.ghostTree).OpenDir RangeOrder.stored (str "ghost")).result =
      ([], fuse.ENOENT) :=
  ⟨rfl, rfl⟩

/-- C13, amended: when the path resolves to a node that is not a Directory (a File or a
node of neither capability), `OpenDir` returns ENOTDIR, not ENOENT, and no entries, and
makes no call beyond those of the resolution. `OpenDir` returns ENOENT only when the
resolution itself fails with that status, or when the path resolves to a Directory whose
own `Children()` fails with that status. -/
theorem OpenDir_non_directory_is_ENOTDIR (f : gitviewfs H) (order : RangeOrder)
    (name : GoString) (node : Node) (hres : (f.findNode name).result = .ok node)
    (hnode : node.asDirNode = none) :
    f.OpenDir order name = ⟨([], fuse.ENOTDIR), (f.findNode name).trace⟩ ∧
    (f.OpenDir order name).result.2 ≠ fuse.ENOENT ∧
    (∀ other : GoString, (f.OpenDir order other).result.2 = fuse.ENOENT →
      (∃ e, (f.findNode other).result = .error e ∧ e.Status = fuse.ENOENT) ∨
      (∃ d e, (f.findNode other).result = .ok d ∧ d.asDirNode = some (.error e) ∧
        e.Status = fuse.ENOENT)) := by
  refine ⟨OpenDir_of_non_dir f order name node hres hnode, ?_, ?_⟩
  · rw [OpenDir_of_non_dir f order name node hres hnode]
    show fuse.ENOTDIR ≠ fuse.ENOENT
    decide
  · intro other hst
    cases hr : (f.findNode other).result with
    | error e =>
      rw [OpenDir_result_of_error f order other e hr] at hst
      exact Or.inl ⟨e, rfl, hst⟩
    | ok n =>
      cases hd : n.asDirNode with
      | none =>
        rw [OpenDir_of_non_dir f order other n hr hd] at hst
        have hst2 : fuse.ENOTDIR = fuse.ENOENT := hst
        exact absurd hst2 (by decide)
      | some c =>
        cases c with
        | error e =>
          rw [OpenDir_result_of_failing_dir f order other n e hr hd] at hst
          exact Or.inr ⟨n, e, rfl, hd, hst⟩
        | ok m =>
          rw [OpenDir_result_of_dir f order other n m hr hd] at hst
          have hst2 : fuse.OK = fuse.ENOENT := hst
          exact absurd hst2 (by decide)

/-- Witness for C13 on the example tree: listing the file `run.sh` returns ENOTDIR and
no entries, with the one `Children()` call of the resolution. -/
theorem OpenDir_non_directory_is_ENOTDIR_witness :
    (Example.fs Example.tree).OpenDir RangeOrder.stored (str "run.sh") =
      ⟨([], fuse.ENOTDIR), ((Example.fs Example.tree).findNode (str "run.sh")).trace⟩ :=
  (OpenDir_non_directory_is_ENOTDIR (Example.fs Example.tree) RangeOrder.stored
    (str "run.sh") (.file (Example.blob filemode.Executable)) rfl rfl).1

/-- C14: resolution is compositional. For non-empty paths `p` and `q`, when `findNode(p)`
returns a node, `findNode(p + "/" + q)` returns what resolving the segments of `q` from
that node returns (which is what `findNode(q)` returns in the tree rooted at that node),
after the calls of `findNode(p)`; when `findNode(p)` fails, `findNode(p + "/" + q)` fails
with the same error after the same calls. This does not extend to an empty `p`: in the
example tree `findNode("/docs")` looks up the empty segment in the root and is not found,
while resolving `docs` from the root, which is what `findNode("")` returns, succeeds. -/
theorem findNode_compositional (f : gitviewfs H) (p q : GoString) (hp : p ≠ [])
    (hq : q ≠ []) :
    (∀ node, (f.findNode p).result = .ok node →
      (f.findNode (p ++ strings.slash :: q)).result =
        (findNodeLoop node (strings.Split q strings.slash)).result ∧
      (f.findNode (p ++ strings.slash :: q)).result =
        (({ f with fstree := node } : gitviewfs H).findNode q).result ∧
      (f.findNode (p ++ strings.slash :: q)).trace =
        (f.findNode p).trace ++ (findNodeLoop node (strings.Split q strings.slash)).trace) ∧
    (∀ e, (f.findNode p).result = .error e →
      f.findNode (p ++ strings.slash :: q) = ⟨.error e, (f.findNode p).trace⟩) ∧
    (((Example.fs Example.tree).findNode (strings.slash :: str "docs")).result =
        .error (fserror.Expected fuse.ENOENT) ∧
      ((Example.fs Example.tree).findNode []).result = .ok Example.tree ∧
      (findNodeLoop Example.tree (strings.Split (str "docs") strings.slash)).result =
        .ok (.dir (.ok [(str "readme.txt", .file (Example.blob filemode.Regular))]))) := by
  refine ⟨?_, ?_, rfl, rfl, rfl⟩
  · intro node hnode
    have hr := findNode_append_result f p q hp
    have ht := findNode_append_trace f p q hp
    rw [hnode] at hr ht
    refine ⟨hr, ?_, ht⟩
    rw [hr, findNode_of_ne_nil _ q hq]
  · intro e he
    have hr := findNode_append_result f p q hp
    have ht := findNode_append_trace f p q hp
    rw [he] at hr ht
    apply eq_of_result_trace
    · exact hr
    · simpa using ht

/-- Witness for C14 on the example tree: `docs/readme.txt` resolves to what
`readme.txt` resolves to from the node of `docs`, and below the missing `nope` the
resolution fails as `nope` does. -/
theorem findNode_compositional_witness :
    ((Example.fs Example.tree).findNode (str "docs" ++ strings.slash :: str "readme.txt")).result =
      (findNodeLoop (.dir (.ok [(str "readme.txt", .file (Example.blob filemode.Regular))]))
        (strings.Split (str "readme.txt") strings.slash)).result ∧
    (Example.fs Example.tree).findNode (str "nope" ++ strings.slash :: str "readme.txt") =
      ⟨.error (fserror.Expected fuse.ENOENT),
        ((Example.fs Example.tree).findNode (str "nope")).trace⟩ :=
  ⟨((findNode_compositional (Example.fs Example.tree) (str "docs") (str "readme.txt")
      (by decide) (by decide)).1 _ rfl).1,
    (findNode_compositional (Example.fs Example.tree) (str "nope") (str "readme.txt")
      (by decide) (by decide)).2.1 _ rfl⟩

/-- C15: listing and resolution agree. When `OpenDir(P)` returns OK, every name `n` it
lists that contains no `/` (and is not empty when `P` is empty) resolves: `findNode` of
the joined path returns exactly the child stored under `n` in the children of the
Directory `P` resolves to. Conversely, every node `findNode` reaches one segment below
`P` is stored under that segment in the children of the Directory `P` resolves to, so the
segment is one of their keys and one of the names `OpenDir(P)` lists. -/
theorem listing_agrees_with_resolution (f : gitviewfs H) (order : RangeOrder)
    (P : GoString) :
    ((f.OpenDir order P).result.2 = fuse.OK →
      ∀ e ∈ (f.OpenDir order P).result.1, (P = [] → e.Name ≠ []) →
        strings.slash ∉ e.Name →
        ∃ dirNode m child, (f.findNode P).result = .ok dirNode ∧
          dirNode.asDirNode = some (.ok m) ∧
          GoMap.get m e.Name = some child ∧
          (f.findNode (joinPath P e.Name)).result = .ok child) ∧
    (∀ (s : GoString) (node : Node), (P = [] → s ≠ []) → strings.slash ∉ s →
      (f.findNode (joinPath P s)).result = .ok node →
      ∃ dirNode m, (f.findNode P).result = .ok dirNode ∧
        dirNode.asDirNode = some (.ok m) ∧ GoMap.get m s = some node ∧
        s ∈ GoMap.keys m ∧ s ∈ (f.OpenDir order P).result.1.map fuse.DirEntry.Name) := by
  constructor
  · intro _ e he hname hslash
    cases hr : (f.findNode P).result with
    | error err =>
      rw [OpenDir_result_of_error f order P err hr] at he
      simp at he
    | ok node =>
      cases hd : node.asDirNode with
      | none =>
        rw [OpenDir_of_non_dir f order P node hr hd] at he
        simp at he
      | some c =>
        cases c with
        | error err =>
          rw [OpenDir_result_of_failing_dir f order P node err hr hd] at he
          simp at he
        | ok m =>
          obtain ⟨child, hget, -⟩ := OpenDir_entry_of_dir f order P node m hr hd e he
          refine ⟨node, m, child, rfl, hd, hget, ?_⟩
          rw [findNode_joinPath_result f P e.Name hname hslash, hr]
          exact (findNodeLoop_single _ _ _).2 ⟨m, hd, hget⟩
  · intro s node hs hslash hres
    rw [findNode_joinPath_result f P s hs hslash] at hres
    cases hr : (f.findNode P).result with
    | error err => simp [hr] at hres
    | ok n =>
      rw [hr] at hres
      obtain ⟨m, hd, hget⟩ := (findNodeLoop_single _ _ _).1 hres
      refine ⟨n, m, rfl, hd, hget, GoMap.mem_keys_of_get hget, ?_⟩
      exact (OpenDir_names_of_dir f order P n m hr hd).mem_iff.2
        (GoMap.mem_keys_of_get hget)

/-- Witness for C15 on the example tree: `readme.txt`, listed in `docs`, resolves at
`docs/readme.txt` to the file stored under it; and `run.sh`, reached one segment below
the root, is a key of the root's children. -/
theorem listing_agrees_with_resolution_witness :
    (∃ dirNode m child,
      ((Example.fs Example.tree).findNode (str "docs")).result = .ok dirNode ∧
      dirNode.asDirNode = some (.ok m) ∧
      GoMap.get m (str "readme.txt") = some child ∧
      ((Example.fs Example.tree).findNode (joinPath (str "docs") (str "readme.txt"))).result
        = .ok child) ∧
    (∃ dirNode m, ((Example.fs Example.tree).findNode []).result = .ok dirNode ∧
      dirNode.asDirNode = some (.ok m) ∧
      GoMap.get m (str "run.sh") = some (.file (Example.blob filemode.Executable)) ∧
      str "run.sh" ∈ GoMap.keys m ∧
      str "run.sh" ∈ ((Example.fs Example.tree).OpenDir RangeOrder.stored []).result.1.map
        fuse.DirEntry.Name) :=
  ⟨(listing_agrees_with_resolution (Example.fs Example.tree) RangeOrder.stored
      (str "docs")).1 rfl ⟨str "readme.txt", 0o100444⟩ (by decide) (by decide) (by decide),
    (listing_agrees_with_resolution (Example.fs Example.tree) RangeOrder.stored []).2
      (str "run.sh") _ (by decide) (by decide) rfl⟩

/-- C16: empty segments are not normalized away. `strings.Split` yields an empty segment
for a leading `/`, for a trailing `/` and between two consecutive `/`; `findNode` looks
that empty segment up like any other: when the node reached before it is not a Directory,
or is a Directory whose children have no empty key, `findNode` fails with the expected
error ENOENT (when they have one, the descent goes on from the child stored under it). In
particular `findNode(p + "/")` fails with ENOENT when `findNode(p)` returns such a node. -/
theorem findNode_empty_segment (f : gitviewfs H) (name : GoString)
    (pre post : List GoString) (node : Node) (hname : name ≠ [])
    (hsplit : strings.Split name strings.slash = pre ++ [] :: post)
    (hpre : (findNodeLoop f.fstree pre).result = .ok node) :
    ((node.asDirNode = none ∨
        ∃ m, node.asDirNode = some (.ok m) ∧ GoMap.get m [] = none) →
      (f.findNode name).result = .error (fserror.Expected fuse.ENOENT)) ∧
    (∀ m child, node.asDirNode = some (.ok m) → GoMap.get m [] = some child →
      (f.findNode name).result = (findNodeLoop child post).result) ∧
    (∀ rest : GoString, strings.Split (strings.slash :: rest) strings.slash =
      [] :: strings.Split rest strings.slash) ∧
    (∀ p : GoString, strings.Split (p ++ [strings.slash]) strings.slash =
      strings.Split p strings.slash ++ [[]]) ∧
    (∀ p q : GoString,
      strings.Split (p ++ strings.slash :: strings.slash :: q) strings.slash =
        strings.Split p strings.slash ++ [] :: strings.Split q strings.slash) ∧
    (∀ (p : GoString) (target : Node), p ≠ [] → (f.findNode p).result = .ok target →
      (target.asDirNode = none ∨
        ∃ m, target.asDirNode = some (.ok m) ∧ GoMap.get m [] = none) →
      (f.findNode (p ++ [strings.slash])).result =
        .error (fserror.Expected fuse.ENOENT)) := by
  have hres : (f.findNode name).result = (findNodeLoop node ([] :: post)).result := by
    rw [findNode_of_ne_nil f name hname, hsplit, findNodeLoop_append_result, hpre]
  refine ⟨?_, ?_, ?_, ?_, ?_, ?_⟩
  · intro hnode
    rw [hres]
    exact findNodeLoop_empty_segment node post hnode
  · intro m child hm hget
    rw [hres]
    exact findNodeLoop_segment_found node m [] child post hm hget
  · intro rest
    exact strings.Split_cons_sep rest strings.slash
  · intro p
    exact strings.Split_append_sep_nil p strings.slash
  · intro p q
    rw [strings.Split_append_sep, strings.Split_cons_sep]
  · intro p target hp htarget hnode
    have h := findNode_append_result f p [] hp
    rw [htarget] at h
    rw [h]
    exact findNodeLoop_empty_segment target [] hnode

/-- Witness for C16 on the example tree: `docs/` has a trailing empty segment and the
children of `docs` have no empty key, so it is not found although `docs` is. -/
theorem findNode_empty_segment_witness :
    ((Example.fs Example.tree).findNode (str "docs/")).result =
      .error (fserror.Expected fuse.ENOENT) ∧
    ((Example.fs Example.tree).findNode (str "docs")).result =
      .ok (.dir (.ok [(str "readme.txt", .file (Example.blob filemode.Regular))])) :=
  ⟨(findNode_empty_segment (Example.fs Example.tree) (str "docs/") [str "docs"] []
      (.dir (.ok [(str "readme.txt", .file (Example.blob filemode.Regular))]))
      (by decide) (by decide) rfl).1 (Or.inr ⟨_, rfl, rfl⟩),
    rfl⟩

end gitviewfs

end Gitviewfs
